import Mathlib

/-!
Verification of the COBS packet framing codec of `PacketStream`
(`PacketStream.cpp` / `PacketStream.h`).

The byte-oriented transport (`mbed::FileHandle`) is modelled as a finite
list of pending input bytes on the receive side, and as a log of the
chunks handed to `_io->write` on the transmit side.  Machine bytes are
modelled as `Nat`; the only place where 8-bit wraparound matters is the
decrement of the `uint8` member `_rx_next_zero`, modelled by `dec8`.
-/

set_option maxHeartbeats 1000000

namespace PacketStream

/-- The `PacketStream::DecodingStatus` enumeration (PacketStream.h). -/
inductive DecodingStatus where
  | DecodingDone
  | DecodingContinue
  | DecodingCobsError
  | DecodingFileError
deriving DecidableEq, Repr

open DecodingStatus

/-- Receive-side decoder state: the `uint8 _rx_next_zero` counter and the
`bool _rx_next_pad` flag of `PacketStream`. -/
structure RxState where
  rx_next_zero : Nat
  rx_next_pad : Bool
deriving DecidableEq, Repr

/-- Decoder state established by the constructor:
`_rx_next_zero = 1; _rx_next_pad = true;`. -/
def rxInit : RxState := ⟨1, true⟩

/-- The `uint8` decrement `_rx_next_zero--` (wraps to 255 at 0). -/
def dec8 (n : Nat) : Nat := if n = 0 then 255 else n - 1

/-- Result of one `PacketStream::_cobs_getc` call: the returned status, the
byte stored through `*val` (written only on `DecodingContinue`), the input
bytes not yet consumed, and the decoder state on return. -/
structure GetcResult where
  status : DecodingStatus
  val : Option Nat
  rest : List Nat
  state : RxState
deriving DecidableEq, Repr

/-- Shallow embedding of `PacketStream::_cobs_getc` (PacketStream.cpp,
lines 157-194), with `_getc` (lines 196-202) inlined as taking the head of
the pending input list; an empty list is a failed `_io->read`, hence
`DecodingFileError`.  Note that the `DecodingFileError` return leaves the
state untouched, while the zero-byte branch always resets it. -/
def cobs_getc : List Nat → RxState → GetcResult
  | [], s => ⟨DecodingFileError, none, [], s⟩
  | d :: rest, s =>
    let nz := dec8 s.rx_next_zero
    if d = 0 then
      ⟨if nz = 0 then DecodingDone else DecodingCobsError, none, rest, rxInit⟩
    else if nz = 0 then
      if s.rx_next_pad then
        cobs_getc rest ⟨d, decide (d = 255)⟩
      else
        ⟨DecodingContinue, some 0, rest, ⟨d, decide (d = 255)⟩⟩
    else
      ⟨DecodingContinue, some d, rest, ⟨nz, s.rx_next_pad⟩⟩

/-- The remaining input of a `DecodingContinue` step is strictly shorter:
every such step consumed at least one transport byte. -/
lemma cobs_getc_rest_lt (input : List Nat) :
    ∀ s : RxState, (cobs_getc input s).status = DecodingContinue →
      (cobs_getc input s).rest.length < input.length := by
  induction input with
  | nil => intro s h; simp [cobs_getc] at h
  | cons d rest ih =>
    intro s h
    simp only [cobs_getc] at h ⊢
    by_cases hd : d = 0
    · rw [if_pos hd] at h
      split at h <;> simp_all
    · rw [if_neg hd] at h ⊢
      by_cases hz : dec8 s.rx_next_zero = 0
      · rw [if_pos hz] at h ⊢
        by_cases hp : s.rx_next_pad
        · rw [if_pos hp] at h ⊢
          exact Nat.lt_trans (ih _ h) (Nat.lt_succ_self _)
        · rw [if_neg hp] at h ⊢
          exact Nat.lt_succ_self _
      · rw [if_neg hz] at h ⊢
        exact Nat.lt_succ_self _

/-- Result of one `PacketStream::read` call: the returned boolean, the bytes
stored into the caller buffer `data`, the loop counter `pos` (stored through
`*actual` when the return value is `true`), the input bytes not yet consumed,
the decoder state on return, and the terminal `DecodingStatus` that ended
the loop. -/
structure ReadResult where
  ok : Bool
  buf : List Nat
  pos : Nat
  rest : List Nat
  state : RxState
  status : DecodingStatus
deriving DecidableEq, Repr

/-- Shallow embedding of the loop body of `PacketStream::read`
(PacketStream.cpp, lines 41-63): `buf` are the bytes stored so far into the
caller buffer (`data[pos] = val` is performed only while `pos < size`) and
`pos` the running counter. -/
def readAux (input : List Nat) (size : Nat) (s : RxState) (buf : List Nat) (pos : Nat) :
    ReadResult :=
  if hc : (cobs_getc input s).status = DecodingContinue then
    readAux (cobs_getc input s).rest size (cobs_getc input s).state
      (if pos < size then buf ++ [(cobs_getc input s).val.getD 0] else buf) (pos + 1)
  else if (cobs_getc input s).status = DecodingDone then
    ⟨true, buf, pos, (cobs_getc input s).rest, (cobs_getc input s).state, DecodingDone⟩
  else
    ⟨false, buf, pos, (cobs_getc input s).rest, (cobs_getc input s).state,
      (cobs_getc input s).status⟩
termination_by input.length
decreasing_by exact cobs_getc_rest_lt input s hc

/-- `PacketStream::read` on a stream whose pending input is `input`, with a
caller buffer of capacity `size`, starting from decoder state `s`. -/
def read (input : List Nat) (size : Nat) (s : RxState) : ReadResult :=
  readAux input size s [] 0

/-- Transmit-side state of `PacketStream::_cobs_write`: the `success` local,
a ghost count `calls` of `_io->write` calls made so far, the data bytes
`_tx_buf[1] .. _tx_buf[_tx_pos - 1]` of the open block (`_tx_pos` equals
`acc.length + 1` whenever `_io->write` is reached, and the reset state
`_tx_pos = 1` corresponds to `acc = []`), and a ghost log `chunks` of the
byte sequences handed to `_io->write`. -/
structure TxState where
  success : Bool
  calls : Nat
  acc : List Nat
  chunks : List (List Nat)
deriving Repr

/-- One `_io->write(_tx_buf, _tx_pos)` call handing over `chunk`:
`results n` is the `ssize_t` the transport returns for the `n`-th call, and
`success = false` is recorded when it differs from the requested count. -/
def txWrite (results : Nat → Int) (t : TxState) (chunk : List Nat) : TxState :=
  ⟨t.success && decide (results t.calls = (chunk.length : Int)), t.calls + 1, t.acc,
    t.chunks ++ [chunk]⟩

/-- One iteration of the loop of `PacketStream::_cobs_write`
(PacketStream.cpp, lines 111-137) on payload byte `b`:
first the overflow flush (`_tx_pos >= 255`, length byte `_tx_pos`), then the
zero flush (`data[i] == 0`, length byte `_tx_pos`), then the unconditional
`_tx_buf[_tx_pos] = data[i]; _tx_pos++`.  For `b = 0` that store lands at
index 0 (the zero flush reset `_tx_pos` to 0) and is overwritten by the next
`_tx_buf[0] = _tx_pos`, so the open block stays empty. -/
def cobs_write_byte (results : Nat → Int) (t : TxState) (b : Nat) : TxState :=
  let t1 := if 255 ≤ t.acc.length + 1 then
      { txWrite results t ((t.acc.length + 1) :: t.acc) with acc := [] }
    else t
  let t2 := if b = 0 then
      { txWrite results t1 ((t1.acc.length + 1) :: t1.acc) with acc := [] }
    else t1
  if b = 0 then t2 else { t2 with acc := t2.acc ++ [b] }

/-- Transmit state established by the constructor: `_tx_buf[0] = 0;
_tx_pos = 1;`, no `_io->write` call made yet. -/
def txInit : TxState := ⟨true, 0, [], []⟩

/-- Shallow embedding of `PacketStream::_cobs_write(data, size, true)`
(PacketStream.cpp, lines 108-155), the body of `PacketStream::write`:
the per-byte loop followed by the `last` block, which writes the final
block plus the appended zero delimiter in a single `_io->write` call and
resets `_tx_pos` to 1 (here `acc = []`). -/
def cobs_write (results : Nat → Int) (data : List Nat) : TxState :=
  let t := data.foldl (cobs_write_byte results) txInit
  { txWrite results t (((t.acc.length + 1) :: t.acc) ++ [0]) with acc := [] }

/-- The frame `PacketStream::write` puts on the wire for a payload: the
concatenation of all chunks handed to `_io->write`.  The chunks do not
depend on the counts the transport reports back (lemma
`cobs_write_chunks_indep`), so the reported counts are fixed arbitrarily. -/
def encodeFrame (data : List Nat) : List Nat :=
  ((cobs_write (fun _ => 0) data).chunks).flatten

/-- Recursive presentation of the frame still to be emitted by
`_cobs_write` when the open block holds `acc` and the remaining payload is
`P`; used to drive inductive proofs about `cobs_write` and `read`. -/
def encodeFrom : List Nat → List Nat → List Nat
  | acc, [] => ((acc.length + 1) :: acc) ++ [0]
  | acc, b :: bs =>
    if h : 255 ≤ acc.length + 1 then
      ((acc.length + 1) :: acc) ++ encodeFrom [] (b :: bs)
    else if b = 0 then
      ((acc.length + 1) :: acc) ++ encodeFrom [] bs
    else
      encodeFrom (acc ++ [b]) bs
termination_by acc P => (P.length, acc.length)
decreasing_by
  · exact Prod.Lex.right _ (by simp only [List.length_nil]; omega)
  · exact Prod.Lex.left _ _ (by simp only [List.length_cons]; omega)
  · exact Prod.Lex.left _ _ (by simp only [List.length_cons]; omega)

/-- The decode step `_cobs_getc` with an explicit recursion budget: each
self-recursive call (the overhead-block branch) spends one unit of `fuel`,
and `none` is returned when the budget is exhausted.  Used to state the
bounded-recursion property of the decoder. -/
def cobs_getc_fueled : Nat → List Nat → RxState → Option GetcResult
  | 0, _, _ => none
  | _ + 1, [], s => some ⟨DecodingFileError, none, [], s⟩
  | fuel + 1, d :: rest, s =>
    let nz := dec8 s.rx_next_zero
    if d = 0 then
      some ⟨if nz = 0 then DecodingDone else DecodingCobsError, none, rest, rxInit⟩
    else if nz = 0 then
      if s.rx_next_pad then
        cobs_getc_fueled fuel rest ⟨d, decide (d = 255)⟩
      else
        some ⟨DecodingContinue, some 0, rest, ⟨d, decide (d = 255)⟩⟩
    else
      some ⟨DecodingContinue, some d, rest, ⟨nz, s.rx_next_pad⟩⟩

/-- The byte count requested from the transport by the `i`-th `_io->write`
call, as an `Int` (the type of the compared `ssize_t` return value). -/
def reqLen (chunks : List (List Nat)) (i : Nat) : Int := ((chunks.getD i []).length : Int)

/-- Every `_io->write` call during the frame returned exactly the requested
count. -/
def chunksOk (results : Nat → Int) (chunks : List (List Nat)) : Prop :=
  ∀ i < chunks.length, results i = reqLen chunks i

/-- The size of the local buffer `uint8_t buf[64 + 1]` of
`PacketStream::scanf` (PacketStream.cpp, lines 65-83). -/
def scanfBufLen : Nat := 64 + 1

/-- The index of the terminator store `buf[actual] = 0` performed by `scanf`
after `read(buf, sizeof(buf) - 1, &actual)` succeeds: the loop counter the
`read` call reports through `*actual`. -/
def scanfTermIndex (input : List Nat) : Nat :=
  (read input (scanfBufLen - 1) rxInit).pos


/-! ## Basic decoder lemmas -/

/-- Whenever `_cobs_getc` returns `DecodingDone` or `DecodingCobsError` — the
two statuses produced by consuming a zero wire byte — it has reset the decoder
state to `_rx_next_zero = 1`, `_rx_next_pad = true`. -/
lemma cobs_getc_reset (input : List Nat) :
    ∀ s : RxState, (cobs_getc input s).status = DecodingDone ∨
      (cobs_getc input s).status = DecodingCobsError →
      (cobs_getc input s).state = rxInit := by
  induction input with
  | nil => intro s h; simp [cobs_getc] at h
  | cons d rest ih =>
    intro s h
    simp only [cobs_getc] at h ⊢
    by_cases hd : d = 0
    · simp [hd]
    · rw [if_neg hd] at h ⊢
      by_cases hz : dec8 s.rx_next_zero = 0
      · rw [if_pos hz] at h ⊢
        by_cases hp : s.rx_next_pad
        · rw [if_pos hp] at h ⊢; exact ih _ h
        · rw [if_neg hp] at h ⊢; simp at h
      · rw [if_neg hz] at h ⊢; simp at h

/-- A `read` loop run only depends on the stream and decoder state through
the result of the next `_cobs_getc` call. -/
lemma readAux_congr {i1 i2 : List Nat} {s1 s2 : RxState} (sz : Nat) (buf : List Nat) (pos : Nat)
    (h : cobs_getc i1 s1 = cobs_getc i2 s2) :
    readAux i1 sz s1 buf pos = readAux i2 sz s2 buf pos := by
  conv_lhs => rw [readAux]
  conv_rhs => rw [readAux]
  rw [h]

/-! ## Decoder stepping lemmas -/

lemma readAux_step_continue {input : List Nat} {s : RxState} {v : Nat} {rest' : List Nat}
    {s' : RxState} (size : Nat) (buf : List Nat) (pos : Nat)
    (h : cobs_getc input s = ⟨DecodingContinue, some v, rest', s'⟩) :
    readAux input size s buf pos =
      readAux rest' size s' (if pos < size then buf ++ [v] else buf) (pos + 1) := by
  rw [readAux, h]; rfl

lemma readAux_step_done {input : List Nat} {s : RxState} {v : Option Nat} {rest' : List Nat}
    {s' : RxState} (size : Nat) (buf : List Nat) (pos : Nat)
    (h : cobs_getc input s = ⟨DecodingDone, v, rest', s'⟩) :
    readAux input size s buf pos = ⟨true, buf, pos, rest', s', DecodingDone⟩ := by
  rw [readAux, h]; rfl

lemma readAux_step_cobs {input : List Nat} {s : RxState} {v : Option Nat} {rest' : List Nat}
    {s' : RxState} (size : Nat) (buf : List Nat) (pos : Nat)
    (h : cobs_getc input s = ⟨DecodingCobsError, v, rest', s'⟩) :
    readAux input size s buf pos = ⟨false, buf, pos, rest', s', DecodingCobsError⟩ := by
  rw [readAux, h]; rfl

lemma readAux_data_run (blk : List Nat) :
    ∀ (rest : List Nat) (pad : Bool) (size : Nat) (buf : List Nat) (pos : Nat),
      (∀ b ∈ blk, b ≠ 0) →
      readAux (blk ++ rest) size ⟨blk.length + 1, pad⟩ buf pos =
        readAux rest size ⟨1, pad⟩ (buf ++ blk.take (size - pos)) (pos + blk.length) := by
  induction blk with
  | nil => intro rest pad size buf pos _; simp
  | cons b blk ih =>
    intro rest pad size buf pos hnz
    have hb : b ≠ 0 := hnz b (by simp)
    have hg : cobs_getc ((b :: blk) ++ rest) ⟨blk.length + 1 + 1, pad⟩ =
        ⟨DecodingContinue, some b, blk ++ rest, ⟨blk.length + 1, pad⟩⟩ := by
      simp [cobs_getc, dec8, hb]
    rw [List.length_cons, readAux_step_continue size buf pos hg,
      ih rest pad size _ _ (fun x hx => hnz x (by simp [hx]))]
    congr 1
    · by_cases hps : pos < size
      · rw [if_pos hps]
        have : size - pos = (size - (pos + 1)) + 1 := by omega
        rw [this, List.take_succ_cons, List.append_assoc]
        rfl
      · rw [if_neg hps]
        have h1 : size - pos = 0 := by omega
        have h2 : size - (pos + 1) = 0 := by omega
        rw [h1, h2]; simp
    · omega

/-- Splitting a `take` across an append, with the position bookkeeping used
by the `read` loop. -/
lemma take_glue (buf A B : List Nat) (size pos : Nat) :
    (buf ++ A.take (size - pos)) ++ B.take (size - (pos + A.length)) =
      buf ++ (A ++ B).take (size - pos) := by
  rw [List.take_append_eq_append_take, List.append_assoc]
  congr 3
  omega

/-- Consuming one whole encoded block `(acc.length + 1) :: acc` from a fresh
block boundary: the decoder emits a leading synthesized zero unless `pad`
is set, then the block's data bytes, and stands at a fresh boundary whose
pad flag records whether the block had the full length 255. -/
lemma readAux_block (acc : List Nat) (rest : List Nat) (pad : Bool) (size : Nat)
    (buf : List Nat) (pos : Nat) (hnz : ∀ b ∈ acc, b ≠ 0) :
    readAux (((acc.length + 1) :: acc) ++ rest) size ⟨1, pad⟩ buf pos =
      readAux rest size ⟨1, decide (acc.length + 1 = 255)⟩
        (buf ++ ((if pad then [] else [0]) ++ acc).take (size - pos))
        (pos + ((if pad then [] else [0]) ++ acc).length) := by
  cases pad with
  | true =>
    have hg : cobs_getc (((acc.length + 1) :: acc) ++ rest) ⟨1, true⟩ =
        cobs_getc (acc ++ rest) ⟨acc.length + 1, decide (acc.length + 1 = 255)⟩ := by
      simp [cobs_getc, dec8]
    rw [readAux_congr size buf pos hg, readAux_data_run acc rest _ size buf pos hnz]
    simp
  | false =>
    have hg : cobs_getc (((acc.length + 1) :: acc) ++ rest) ⟨1, false⟩ =
        ⟨DecodingContinue, some 0, acc ++ rest,
          ⟨acc.length + 1, decide (acc.length + 1 = 255)⟩⟩ := by
      simp [cobs_getc, dec8]
    rw [readAux_step_continue size buf pos hg,
      readAux_data_run acc rest _ size _ _ hnz]
    congr 1
    · by_cases hps : pos < size
      · rw [if_pos hps]
        have : size - pos = (size - (pos + 1)) + 1 := by omega
        rw [this]
        simp [List.append_assoc]
      · rw [if_neg hps]
        have h1 : size - pos = 0 := by omega
        have h2 : size - (pos + 1) = 0 := by omega
        rw [h1, h2]; simp
    · simp; omega


/-- Unfolding of `encodeFrom` for an exhausted payload: final flush plus the
zero delimiter. -/
lemma encodeFrom_nil (acc : List Nat) :
    encodeFrom acc [] = ((acc.length + 1) :: acc) ++ [0] := by
  rw [encodeFrom]

/-- Unfolding of `encodeFrom` when the open block is full (`_tx_pos >= 255`):
the overhead-block flush. -/
lemma encodeFrom_overflow (acc : List Nat) (b : Nat) (bs : List Nat)
    (h : 255 ≤ acc.length + 1) :
    encodeFrom acc (b :: bs) = ((acc.length + 1) :: acc) ++ encodeFrom [] (b :: bs) := by
  rw [encodeFrom.eq_2, dif_pos h]

/-- Unfolding of `encodeFrom` on a zero payload byte: flush of the open block,
the zero itself is not stored. -/
lemma encodeFrom_zero (acc : List Nat) (bs : List Nat) (h : ¬ 255 ≤ acc.length + 1) :
    encodeFrom acc (0 :: bs) = ((acc.length + 1) :: acc) ++ encodeFrom [] bs := by
  rw [encodeFrom.eq_2, dif_neg h, if_pos rfl]

/-- Unfolding of `encodeFrom` on a non-zero payload byte: the byte is appended
to the open block. -/
lemma encodeFrom_data (acc : List Nat) (b : Nat) (bs : List Nat)
    (h : ¬ 255 ≤ acc.length + 1) (hb : b ≠ 0) :
    encodeFrom acc (b :: bs) = encodeFrom (acc ++ [b]) bs := by
  rw [encodeFrom.eq_2, dif_neg h, if_neg hb]



/-- Special case of `readAux_block` for an empty block `[1]`. -/
lemma readAux_block_nil (rest : List Nat) (pad : Bool) (size : Nat) (buf : List Nat) (pos : Nat) :
    readAux (1 :: rest) size ⟨1, pad⟩ buf pos =
      readAux rest size ⟨1, false⟩
        (buf ++ (if pad then [] else [0]).take (size - pos))
        (pos + (if pad then [] else [0]).length) := by
  have h := readAux_block [] rest pad size buf pos (by simp)
  simpa using h

/-- Main decode lemma: running the `read` loop on the frame still to be
emitted for open block `acc` and remaining payload `P`, followed by any
trailing stream bytes `rest`, succeeds and appends exactly the decoded bytes
(a leading synthesized zero when `pad` is unset, then `acc`, then `P`) to the
caller buffer, subject to the capacity bound. -/
lemma decode_encodeFrom (P : List Nat) :
    ∀ (acc : List Nat) (pad : Bool) (rest : List Nat) (size : Nat) (buf : List Nat) (pos : Nat),
      (∀ b ∈ acc, b ≠ 0) → acc.length ≤ 254 →
      readAux (encodeFrom acc P ++ rest) size ⟨1, pad⟩ buf pos =
        ⟨true, buf ++ ((if pad then [] else [0]) ++ acc ++ P).take (size - pos),
          pos + ((if pad then [] else [0]) ++ acc ++ P).length, rest, rxInit, DecodingDone⟩ := by
  induction P with
  | nil =>
    intro acc pad rest size buf pos hnz hle
    rw [encodeFrom_nil, List.append_assoc, readAux_block acc ([0] ++ rest) pad size buf pos hnz]
    have hg : cobs_getc ([0] ++ rest) ⟨1, decide (acc.length + 1 = 255)⟩ =
        ⟨DecodingDone, none, rest, rxInit⟩ := by
      simp [cobs_getc, dec8, rxInit]
    rw [readAux_step_done _ _ _ hg]
    simp [List.append_assoc]
  | cons b bs ih =>
    intro acc pad rest size buf pos hnz hle
    by_cases hov : 255 ≤ acc.length + 1
    · rw [encodeFrom_overflow acc b bs hov]
      have hacc : decide (acc.length + 1 = 255) = true := by
        simp only [decide_eq_true_eq]; omega
      rw [List.append_assoc, readAux_block acc _ pad size buf pos hnz, hacc]
      by_cases hb : b = 0
      · subst hb
        rw [encodeFrom_zero [] bs (by simp)]
        simp only [List.length_nil, List.nil_append, List.cons_append, List.append_assoc]
        rw [show (0 + 1 : Nat) = 1 from rfl]
        rw [readAux_block_nil]
        simp only [show (if (true : Bool) then ([] : List Nat) else [0]) = [] from rfl,
          List.take_nil, List.append_nil, List.length_nil, Nat.add_zero]
        rw [ih [] false rest size _ _ (by simp) (by simp)]
        simp only [ReadResult.mk.injEq, true_and, and_true]
        constructor
        · simp only [if_true, Bool.false_eq_true, if_false, List.take_nil, List.append_nil,
            List.length_nil, Nat.add_zero, List.nil_append, List.singleton_append]
          rw [take_glue]
          congr 1
          simp [List.append_assoc]
        · simp [List.append_assoc]
          omega
      · rw [encodeFrom_data [] b bs (by simp) hb]
        simp only [List.nil_append]
        rw [ih [b] true rest size _ _ (by simp [hb]) (by simp)]
        simp only [show (if (true : Bool) then ([] : List Nat) else [0]) = [] from rfl,
          List.nil_append]
        rw [take_glue]
        simp only [ReadResult.mk.injEq, true_and, and_true]
        constructor
        · simp [List.append_assoc]
        · simp [List.append_assoc]
          omega
    · have hacc : decide (acc.length + 1 = 255) = false := by
        simp only [decide_eq_false_iff_not]; omega
      by_cases hb : b = 0
      · subst hb
        rw [encodeFrom_zero acc bs hov]
        rw [List.append_assoc, readAux_block acc _ pad size buf pos hnz, hacc]
        rw [ih [] false rest size _ _ (by simp) (by simp)]
        rw [take_glue]
        simp only [ReadResult.mk.injEq, true_and, and_true]
        constructor
        · simp [List.append_assoc]
        · simp [List.append_assoc]
          omega
      · rw [encodeFrom_data acc b bs hov hb]
        rw [ih (acc ++ [b]) pad rest size buf pos
          (by intro x hx; rcases List.mem_append.1 hx with h1 | h1
              · exact hnz x h1
              · simp at h1; simpa [h1] using hb)
          (by simp at hov ⊢; omega)]
        simp only [ReadResult.mk.injEq, true_and, and_true]
        constructor
        · simp [List.append_assoc]
        · simp [List.append_assoc]



/-- The bytes handed to the transport by the encoding loop, followed by the
final flush-plus-delimiter chunk, form the frame `encodeFrom t.acc P`. -/
lemma cobs_write_foldl_frame (results : Nat → Int) (P : List Nat) :
    ∀ t : TxState,
      (P.foldl (cobs_write_byte results) t).chunks.flatten ++
        (((P.foldl (cobs_write_byte results) t).acc.length + 1) ::
          (P.foldl (cobs_write_byte results) t).acc ++ [0]) =
      t.chunks.flatten ++ encodeFrom t.acc P := by
  induction P with
  | nil =>
    intro t
    rw [List.foldl_nil, encodeFrom_nil]
  | cons b bs ih =>
    intro t
    rw [List.foldl_cons, ih (cobs_write_byte results t b)]
    by_cases hov : 255 ≤ t.acc.length + 1
    · rw [encodeFrom_overflow _ _ _ hov]
      by_cases hb : b = 0
      · subst hb
        rw [encodeFrom_zero [] bs (by simp)]
        simp [cobs_write_byte, txWrite, hov, List.flatten_append, List.append_assoc]
      · rw [encodeFrom_data [] b bs (by simp) hb]
        simp [cobs_write_byte, txWrite, hov, hb, List.flatten_append, List.append_assoc]
    · by_cases hb : b = 0
      · subst hb
        rw [encodeFrom_zero t.acc bs hov]
        simp [cobs_write_byte, txWrite, hov, List.flatten_append, List.append_assoc]
      · rw [encodeFrom_data t.acc b bs hov hb]
        simp [cobs_write_byte, txWrite, hov, hb, List.flatten_append, List.append_assoc]

/-- The complete wire output of `PacketStream::write` is `encodeFrom [] P`,
independently of the write counts the transport reports. -/
lemma encodeFrame_eq (results : Nat → Int) (P : List Nat) :
    (cobs_write results P).chunks.flatten = encodeFrom [] P := by
  have h := cobs_write_foldl_frame results P txInit
  simp only [cobs_write, txWrite, txInit] at *
  simp only [List.flatten_append, List.flatten_cons, List.flatten_nil, List.append_nil,
    List.nil_append] at *
  rw [← h]



/-- One transport write preserves the bookkeeping invariant: the call count
matches the chunk log, and `success` is set exactly when all counts so far
matched. -/
lemma txWrite_inv (results : Nat → Int) (t : TxState) (chunk : List Nat)
    (h1 : t.calls = t.chunks.length)
    (h2 : t.success = true ↔ chunksOk results t.chunks) :
    (txWrite results t chunk).calls = (txWrite results t chunk).chunks.length ∧
      ((txWrite results t chunk).success = true ↔
        chunksOk results (txWrite results t chunk).chunks) := by
  constructor
  · simp [txWrite, h1]
  · simp only [txWrite, Bool.and_eq_true, decide_eq_true_eq, h2]
    constructor
    · rintro ⟨hok, hlast⟩ i hi
      simp only [List.length_append, List.length_cons, List.length_nil] at hi
      rcases Nat.lt_or_ge i t.chunks.length with hlt | hge
      · rw [reqLen, List.getD_append _ _ _ _ hlt]
        exact hok i hlt
      · have hieq : i = t.chunks.length := by omega
        subst hieq
        rw [reqLen, List.getD_append_right _ _ _ _ hge, Nat.sub_self]
        simp only [List.getD_cons_zero]
        rw [← h1]
        exact hlast
    · intro hok
      refine ⟨fun i hi => ?_, ?_⟩
      · have hh := hok i (by simp; omega)
        rwa [reqLen, List.getD_append _ _ _ _ hi] at hh
      · have hh := hok t.chunks.length (by simp)
        rw [reqLen, List.getD_append_right _ _ _ _ (Nat.le_refl _), Nat.sub_self] at hh
        simp only [List.getD_cons_zero] at hh
        rw [h1]
        exact hh

/-- The invariant also holds after a flush, which is a transport write
followed by a reset of the open block (`acc`). -/
lemma txWriteR_inv (results : Nat → Int) (u : TxState) (c : List Nat) (a : List Nat)
    (hu1 : u.calls = u.chunks.length)
    (hu2 : u.success = true ↔ chunksOk results u.chunks) :
    ({ txWrite results u c with acc := a } : TxState).calls =
        ({ txWrite results u c with acc := a } : TxState).chunks.length ∧
      (({ txWrite results u c with acc := a } : TxState).success = true ↔
        chunksOk results ({ txWrite results u c with acc := a } : TxState).chunks) :=
  txWrite_inv results u c hu1 hu2

/-- One iteration of the encoder loop preserves the bookkeeping invariant. -/
lemma cobs_write_byte_inv (results : Nat → Int) (t : TxState) (b : Nat)
    (h1 : t.calls = t.chunks.length)
    (h2 : t.success = true ↔ chunksOk results t.chunks) :
    (cobs_write_byte results t b).calls = (cobs_write_byte results t b).chunks.length ∧
      ((cobs_write_byte results t b).success = true ↔
        chunksOk results (cobs_write_byte results t b).chunks) := by
  by_cases hov : 255 ≤ t.acc.length + 1 <;> by_cases hb : b = 0
  · have e : cobs_write_byte results t b =
        { txWrite results { txWrite results t ((t.acc.length + 1) :: t.acc) with acc := [] }
            [List.length ([] : List Nat) + 1] with acc := [] } := by
      simp [cobs_write_byte, hov, hb]
    rw [e]
    have k1 := txWriteR_inv results t ((t.acc.length + 1) :: t.acc) [] h1 h2
    exact txWriteR_inv results _ _ _ k1.1 k1.2
  · have e : cobs_write_byte results t b =
        { txWrite results t ((t.acc.length + 1) :: t.acc) with acc := [b] } := by
      simp [cobs_write_byte, hov, hb]
    rw [e]
    exact txWriteR_inv results t _ _ h1 h2
  · have e : cobs_write_byte results t b =
        { txWrite results t ((t.acc.length + 1) :: t.acc) with acc := [] } := by
      simp [cobs_write_byte, hov, hb]
    rw [e]
    exact txWriteR_inv results t _ _ h1 h2
  · have e : cobs_write_byte results t b = { t with acc := t.acc ++ [b] } := by
      simp [cobs_write_byte, hov, hb]
    rw [e]
    exact ⟨h1, h2⟩



/-- One unfolding of the `read` loop when the decode step continues. -/
lemma readAux_unfold_continue (input : List Nat) (s : RxState) (size : Nat)
    (buf : List Nat) (pos : Nat) (h : (cobs_getc input s).status = DecodingContinue) :
    readAux input size s buf pos =
      readAux (cobs_getc input s).rest size (cobs_getc input s).state
        (if pos < size then buf ++ [(cobs_getc input s).val.getD 0] else buf) (pos + 1) := by
  rw [readAux, dif_pos h]

/-- One unfolding of the `read` loop when the decode step reports the end of
a valid packet. -/
lemma readAux_unfold_done (input : List Nat) (s : RxState) (size : Nat)
    (buf : List Nat) (pos : Nat) (h : (cobs_getc input s).status = DecodingDone) :
    readAux input size s buf pos =
      ⟨true, buf, pos, (cobs_getc input s).rest, (cobs_getc input s).state, DecodingDone⟩ := by
  rw [readAux, dif_neg (by simp [h]), if_pos h]

/-- One unfolding of the `read` loop on an error status: the loop returns
`false`. -/
lemma readAux_unfold_other (input : List Nat) (s : RxState) (size : Nat)
    (buf : List Nat) (pos : Nat) (h1 : (cobs_getc input s).status ≠ DecodingContinue)
    (h2 : (cobs_getc input s).status ≠ DecodingDone) :
    readAux input size s buf pos =
      ⟨false, buf, pos, (cobs_getc input s).rest, (cobs_getc input s).state,
        (cobs_getc input s).status⟩ := by
  rw [readAux, dif_neg h1, if_neg h2]

/-- Storing one decoded byte subject to the capacity check, expressed through
`List.take`. -/
lemma buf_step (buf : List Nat) (v : Nat) (em : List Nat) (size pos : Nat) :
    (if pos < size then buf ++ [v] else buf) ++ em.take (size - (pos + 1)) =
      buf ++ (v :: em).take (size - pos) := by
  by_cases hps : pos < size
  · rw [if_pos hps]
    have hsp : size - pos = (size - (pos + 1)) + 1 := by omega
    rw [hsp, List.take_succ_cons, List.append_assoc]
    rfl
  · rw [if_neg hps]
    have hz1 : size - pos = 0 := by omega
    have hz2 : size - (pos + 1) = 0 := by omega
    rw [hz1, hz2]; simp

/-- Two runs of the `read` loop on the same stream and decoder state differ
only in which prefix of the emitted bytes fits the caller buffer: the status,
the consumed input, the final state and the byte count agree, and each run
stores exactly the emitted bytes truncated to its own capacity. -/
lemma readAux_pair (n : Nat) :
    ∀ (input : List Nat), input.length ≤ n →
    ∀ (s : RxState) (pos size1 size2 : Nat) (buf1 buf2 : List Nat),
    ∃ (em : List Nat) (ok : Bool) (rest : List Nat) (st : RxState) (status : DecodingStatus),
      em.length ≤ input.length ∧
      readAux input size1 s buf1 pos =
        ⟨ok, buf1 ++ em.take (size1 - pos), pos + em.length, rest, st, status⟩ ∧
      readAux input size2 s buf2 pos =
        ⟨ok, buf2 ++ em.take (size2 - pos), pos + em.length, rest, st, status⟩ := by
  induction n with
  | zero =>
    intro input hlen s pos size1 size2 buf1 buf2
    have hnil : input = [] := List.eq_nil_of_length_eq_zero (by omega)
    subst hnil
    refine ⟨[], false, [], s, DecodingFileError, by simp, ?_, ?_⟩ <;>
      · rw [readAux_unfold_other _ _ _ _ _ (by simp [cobs_getc]) (by simp [cobs_getc])]
        simp [cobs_getc]
  | succ n ihn =>
    intro input hlen s pos size1 size2 buf1 buf2
    cases hst : (cobs_getc input s).status with
    | DecodingContinue =>
      have hlt := cobs_getc_rest_lt input s hst
      obtain ⟨em, ok, rest, st, status, hle, h1, h2⟩ :=
        ihn (cobs_getc input s).rest (by omega) (cobs_getc input s).state (pos + 1)
          size1 size2
          (if pos < size1 then buf1 ++ [(cobs_getc input s).val.getD 0] else buf1)
          (if pos < size2 then buf2 ++ [(cobs_getc input s).val.getD 0] else buf2)
      refine ⟨(cobs_getc input s).val.getD 0 :: em, ok, rest, st, status,
        by simp only [List.length_cons]; omega, ?_, ?_⟩
      · rw [readAux_unfold_continue _ _ _ _ _ hst, h1]
        simp only [ReadResult.mk.injEq, true_and, and_true]
        exact ⟨buf_step _ _ _ _ _, by simp only [List.length_cons]; omega⟩
      · rw [readAux_unfold_continue _ _ _ _ _ hst, h2]
        simp only [ReadResult.mk.injEq, true_and, and_true]
        exact ⟨buf_step _ _ _ _ _, by simp only [List.length_cons]; omega⟩
    | DecodingDone =>
      refine ⟨[], true, (cobs_getc input s).rest, (cobs_getc input s).state, DecodingDone,
        by simp, ?_, ?_⟩ <;>
        · rw [readAux_unfold_done _ _ _ _ _ hst]
          simp
    | DecodingCobsError =>
      refine ⟨[], false, (cobs_getc input s).rest, (cobs_getc input s).state, DecodingCobsError,
        by simp, ?_, ?_⟩ <;>
        · rw [readAux_unfold_other _ _ _ _ _ (by simp [hst]) (by simp [hst]), hst]
          simp
    | DecodingFileError =>
      refine ⟨[], false, (cobs_getc input s).rest, (cobs_getc input s).state, DecodingFileError,
        by simp, ?_, ?_⟩ <;>
        · rw [readAux_unfold_other _ _ _ _ _ (by simp [hst]) (by simp [hst]), hst]
          simp



/-- A `_cobs_getc` call never un-consumes input. -/
lemma cobs_getc_rest_le (input : List Nat) :
    ∀ s : RxState, (cobs_getc input s).rest.length ≤ input.length := by
  induction input with
  | nil => intro s; simp [cobs_getc]
  | cons d rest ih =>
    intro s
    simp only [cobs_getc]
    by_cases hd : d = 0
    · simp [hd]
    · rw [if_neg hd]
      by_cases hz : dec8 s.rx_next_zero = 0
      · rw [if_pos hz]
        by_cases hp : s.rx_next_pad
        · rw [if_pos hp]
          exact Nat.le_trans (ih _) (by simp)
        · rw [if_neg hp]; simp
      · rw [if_neg hz]; simp

/-- All wire bytes consumed by a `DecodingContinue` step are non-zero: a zero
wire byte always ends the step with a terminal status. -/
lemma cobs_getc_consumed_nonzero (input : List Nat) :
    ∀ s : RxState, (cobs_getc input s).status = DecodingContinue →
      (input.take (input.length - (cobs_getc input s).rest.length)).all
        (fun b => b != 0) = true := by
  induction input with
  | nil => intro s h; simp [cobs_getc] at h
  | cons d rest ih =>
    intro s h
    simp only [cobs_getc] at h ⊢
    by_cases hd : d = 0
    · rw [if_pos hd] at h
      split at h <;> simp_all
    · rw [if_neg hd] at h ⊢
      by_cases hz : dec8 s.rx_next_zero = 0
      · rw [if_pos hz] at h ⊢
        by_cases hp : s.rx_next_pad
        · rw [if_pos hp] at h ⊢
          have hle := cobs_getc_rest_le rest ⟨d, decide (d = 255)⟩
          have hcount : (d :: rest).length - (cobs_getc rest ⟨d, decide (d = 255)⟩).rest.length =
              (rest.length - (cobs_getc rest ⟨d, decide (d = 255)⟩).rest.length) + 1 := by
            simp only [List.length_cons]; omega
          rw [hcount, List.take_succ_cons, List.all_cons]
          have hin := ih _ h
          simp only [hin, Bool.and_true]
          simpa using hd
        · rw [if_neg hp] at h ⊢
          simp only [List.length_cons, Nat.add_sub_cancel_left]
          have ht : List.take 1 (d :: rest) = [d] := rfl
          rw [ht]
          simpa using hd
      · rw [if_neg hz] at h ⊢
        simp only [List.length_cons, Nat.add_sub_cancel_left]
        have ht : List.take 1 (d :: rest) = [d] := rfl
        rw [ht]
        simpa using hd

/-- When the `read` loop ends with `DecodingCobsError`, the decoder state has
been reset to the initial state (the error was raised by a consumed zero
delimiter byte). -/
lemma readAux_cobs_reset (n : Nat) :
    ∀ (input : List Nat), input.length ≤ n → ∀ (size : Nat) (s : RxState) (buf : List Nat)
      (pos : Nat), (readAux input size s buf pos).status = DecodingCobsError →
      (readAux input size s buf pos).state = rxInit := by
  induction n with
  | zero =>
    intro input hlen size s buf pos h
    have hnil : input = [] := List.eq_nil_of_length_eq_zero (by omega)
    subst hnil
    rw [readAux_unfold_other _ _ _ _ _ (by simp [cobs_getc]) (by simp [cobs_getc])] at h
    simp [cobs_getc] at h
  | succ n ihn =>
    intro input hlen size s buf pos h
    cases hst : (cobs_getc input s).status with
    | DecodingContinue =>
      have hlt := cobs_getc_rest_lt input s hst
      rw [readAux_unfold_continue _ _ _ _ _ hst] at h ⊢
      exact ihn _ (by omega) _ _ _ _ h
    | DecodingDone =>
      rw [readAux_unfold_done _ _ _ _ _ hst] at h
      simp at h
    | DecodingCobsError =>
      rw [readAux_unfold_other _ _ _ _ _ (by simp [hst]) (by simp [hst])]
      exact cobs_getc_reset input s (Or.inr hst)
    | DecodingFileError =>
      rw [readAux_unfold_other _ _ _ _ _ (by simp [hst]) (by simp [hst])] at h
      simp [hst] at h

/-- A payload without zero bytes that fits a single block is emitted as one
length-prefixed block followed by the zero delimiter. -/
lemma encodeFrom_all_nonzero (P : List Nat) :
    ∀ acc : List Nat, (∀ b ∈ P, b ≠ 0) → acc.length + P.length ≤ 254 →
      encodeFrom acc P = ((acc.length + P.length + 1) :: (acc ++ P)) ++ [0] := by
  induction P with
  | nil => intro acc _ _; rw [encodeFrom_nil]; simp
  | cons b bs ih =>
    intro acc hnz hle
    have hb : b ≠ 0 := hnz b (by simp)
    have hov : ¬ 255 ≤ acc.length + 1 := by
      simp only [List.length_cons] at hle; omega
    rw [encodeFrom_data acc b bs hov hb,
      ih (acc ++ [b]) (fun x hx => hnz x (by simp [hx]))
        (by simp only [List.length_append, List.length_cons, List.length_nil] at hle ⊢; omega)]
    simp only [List.length_append, List.length_cons, List.length_nil, List.append_assoc,
      List.singleton_append, List.cons_append]
    congr 2
    omega




/-- C9: the decode step with an explicit recursion budget of 2 computes the
same result as `_cobs_getc` on every input and state — the self-recursive
control-byte branch is taken at most once, because a control byte of 255
leaves data bytes remaining and a control byte of 1 clears the
pending-overhead flag — and each outer call consumes at most two transport
bytes. -/
theorem decoder_recursion_bounded (input : List Nat) (s : RxState) :
    cobs_getc_fueled 2 input s = some (cobs_getc input s) ∧
      input.length ≤ (cobs_getc input s).rest.length + 2 := by
  cases input with
  | nil => exact ⟨rfl, by simp [cobs_getc]⟩
  | cons d rest =>
    simp only [cobs_getc_fueled, cobs_getc]
    by_cases hd : d = 0
    · rw [if_pos hd, if_pos hd]
      exact ⟨rfl, by simp⟩
    · rw [if_neg hd, if_neg hd]
      by_cases hz : dec8 s.rx_next_zero = 0
      · rw [if_pos hz, if_pos hz]
        by_cases hp : s.rx_next_pad
        · rw [if_pos hp, if_pos hp]
          cases rest with
          | nil => exact ⟨rfl, by simp [cobs_getc, cobs_getc_fueled]⟩
          | cons d2 rest2 =>
            simp only [cobs_getc_fueled, cobs_getc]
            by_cases hd2 : d2 = 0
            · rw [if_pos hd2, if_pos hd2]
              exact ⟨rfl, by simp⟩
            · rw [if_neg hd2, if_neg hd2]
              by_cases hz2 : dec8 d = 0
              · have hd1 : d = 1 := by
                  simp only [dec8] at hz2
                  split at hz2 <;> omega
                subst hd1
                rw [if_pos hz2, if_pos hz2]
                norm_num
              · rw [if_neg hz2, if_neg hz2]
                exact ⟨rfl, by simp⟩
        · rw [if_neg hp, if_neg hp]
          exact ⟨rfl, by simp⟩
      · rw [if_neg hz, if_neg hz]
        exact ⟨rfl, by simp⟩

/-- Round trip at the public interface: reading back an encoded frame from a
fresh decoder yields the payload, truncated to the caller capacity. -/
lemma read_encodeFrame (P : List Nat) (size : Nat) (hsize : P.length ≤ size) :
    read (encodeFrame P) size rxInit = ⟨true, P, P.length, [], rxInit, DecodingDone⟩ := by
  rw [read, encodeFrame, encodeFrame_eq]
  have h := decode_encodeFrom P [] true [] size [] 0 (by simp) (by simp)
  rw [List.append_nil] at h
  show readAux (encodeFrom [] P) size ⟨1, true⟩ [] 0 = _
  rw [h]
  simp [List.take_of_length_le hsize, rxInit]



/-! ## Claim theorems -/

/-- C1: for every byte payload `P` and caller buffer of sufficient capacity,
encoding `P` with `write` and decoding the produced frame with `read` on the
same stream returns success, a decoded byte sequence equal to `P`, and a
reported actual length equal to `P.length`. -/
theorem round_trip (P : List Nat) (size : Nat) (hbytes : ∀ b ∈ P, b < 256)
    (hsize : P.length ≤ size) :
    read (encodeFrame P) size rxInit = ⟨true, P, P.length, [], rxInit, DecodingDone⟩ :=
  read_encodeFrame P size hsize

theorem round_trip_witness :
    (∀ b ∈ [17, 34, 0, 51], b < 256) ∧ ([17, 34, 0, 51] : List Nat).length ≤ 4 ∧
      read (encodeFrame [17, 34, 0, 51]) 4 rxInit =
        ⟨true, [17, 34, 0, 51], 4, [], rxInit, DecodingDone⟩ :=
  ⟨by decide, by decide, round_trip [17, 34, 0, 51] 4 (by decide) (by decide)⟩

/-- C2: the encoder produces exactly the specified wire bytes for each
specified payload, including the 254-byte single-overhead-block boundary case
and the 255-byte payload starting at 0. -/
theorem wire_format_vectors :
    encodeFrame [] = [0x01, 0x00] ∧
    encodeFrame [0x00] = [0x01, 0x01, 0x00] ∧
    encodeFrame [0x00, 0x00] = [0x01, 0x01, 0x01, 0x00] ∧
    encodeFrame [0x11, 0x22, 0x00, 0x33] = [0x03, 0x11, 0x22, 0x02, 0x33, 0x00] ∧
    encodeFrame [0x11, 0x22, 0x33, 0x44] = [0x05, 0x11, 0x22, 0x33, 0x44, 0x00] ∧
    encodeFrame (List.range' 1 254) = (0xFF :: List.range' 1 254) ++ [0x00] ∧
    encodeFrame (0 :: List.range' 1 254) = 0x01 :: 0xFF :: (List.range' 1 254 ++ [0x00]) := by
  have hnz : ∀ b ∈ List.range' 1 254, b ≠ 0 := by
    intro b hb
    have := List.mem_range'.1 hb
    omega
  refine ⟨by decide, by decide, by decide, by decide, by decide, ?_, ?_⟩
  · rw [encodeFrame, encodeFrame_eq,
      encodeFrom_all_nonzero (List.range' 1 254) [] hnz (by simp)]
    simp
  · rw [encodeFrame, encodeFrame_eq, encodeFrom_zero [] (List.range' 1 254) (by simp),
      encodeFrom_all_nonzero (List.range' 1 254) [] hnz (by simp)]
    simp

/-- C3 counterexample: a decode step that ends with the terminal status
`DecodingFileError` does not reset the decoder state — after reading the
single byte `0x03` (a length byte consumed by the recursive call, which then
hits a failed transport read) the state is `(3, false)`, not the initial
`(1, true)`. -/
theorem file_error_no_reset_counterexample :
    (cobs_getc [3] rxInit).status = DecodingFileError ∧
      (cobs_getc [3] rxInit).state ≠ rxInit := by decide

/-- C3 (amended): after every decoder step that returns `DecodingDone` or
`DecodingCobsError` — the two statuses raised by a consumed zero wire byte —
the decoder state equals the initial state (`remaining = 1`,
`pending-overhead = true`); a `DecodingFileError` step leaves the state as the
partial scan left it. -/
theorem terminal_reset_done_or_protocol_error (input : List Nat) (s : RxState)
    (h : (cobs_getc input s).status = DecodingDone ∨
      (cobs_getc input s).status = DecodingCobsError) :
    (cobs_getc input s).state = rxInit :=
  cobs_getc_reset input s h

theorem terminal_reset_done_or_protocol_error_witness :
    ((cobs_getc [0] rxInit).status = DecodingDone ∨
        (cobs_getc [0] rxInit).status = DecodingCobsError) ∧
      (cobs_getc [0] rxInit).state = rxInit :=
  ⟨Or.inl (by decide),
    terminal_reset_done_or_protocol_error [0] rxInit (Or.inl (by decide))⟩

/-- C4: if a `read` call fails with a protocol error (`DecodingCobsError`)
and the remaining input of the stream is a well-formed frame for payload `Q`,
then the subsequent `read` call on the same stream returns success with
payload `Q` and actual length `Q.length`. -/
theorem resync_after_protocol_error (input : List Nat) (cap : Nat) (Q : List Nat)
    (cap2 : Nat) (hbytes : ∀ b ∈ Q, b < 256) (hcap : Q.length ≤ cap2)
    (herr : (read input cap rxInit).status = DecodingCobsError)
    (hrest : (read input cap rxInit).rest = encodeFrame Q) :
    read (read input cap rxInit).rest cap2 (read input cap rxInit).state =
      ⟨true, Q, Q.length, [], rxInit, DecodingDone⟩ := by
  have hstate : (read input cap rxInit).state = rxInit :=
    readAux_cobs_reset input.length input (Nat.le_refl _) cap rxInit [] 0 herr
  rw [hrest, hstate]
  exact read_encodeFrame Q cap2 hcap

theorem resync_after_protocol_error_witness :
    (∀ b ∈ [0], b < 256) ∧ ([0] : List Nat).length ≤ 512 ∧
      (read [1, 2, 0, 1, 1, 0] 512 rxInit).status = DecodingCobsError ∧
      (read [1, 2, 0, 1, 1, 0] 512 rxInit).rest = encodeFrame [0] ∧
      read (read [1, 2, 0, 1, 1, 0] 512 rxInit).rest 512
          (read [1, 2, 0, 1, 1, 0] 512 rxInit).state =
        ⟨true, [0], 1, [], rxInit, DecodingDone⟩ :=
  ⟨by decide, by decide,
    by simp +decide [read, readAux, cobs_getc, dec8, rxInit],
    by simp +decide [read, readAux, cobs_getc, dec8, rxInit],
    resync_after_protocol_error [1, 2, 0, 1, 1, 0] 512 [0] 512 (by decide) (by decide)
      (by simp +decide [read, readAux, cobs_getc, dec8, rxInit])
      (by simp +decide [read, readAux, cobs_getc, dec8, rxInit])⟩

/-- C5: decoding the wire bytes `0x01 0x02 0x00` (a zero arriving before the
position where a length byte is expected) terminates with
`DecodingCobsError`, not `DecodingDone`, and at the public interface `read`
returns `false`. -/
theorem malformed_frame_detected :
    read [0x01, 0x02, 0x00] 512 rxInit =
      ⟨false, [0], 1, [], rxInit, DecodingCobsError⟩ := by
  simp +decide [read, readAux, cobs_getc, dec8, rxInit]

/-- C6: for a stream whose next frame is valid (the full-capacity decode
succeeds) with true payload length exceeding the caller capacity `size`,
`read` still returns `true`, stores exactly the first `size` decoded bytes,
and reports the true payload length through `*actual`. -/
theorem silent_truncation_true_length (input : List Nat) (size : Nat)
    (hok : (read input input.length rxInit).ok = true)
    (hbig : size < (read input input.length rxInit).pos) :
    (read input size rxInit).ok = true ∧
      (read input size rxInit).buf = (read input input.length rxInit).buf.take size ∧
      (read input size rxInit).pos = (read input input.length rxInit).pos ∧
      (read input input.length rxInit).buf.length = (read input input.length rxInit).pos := by
  obtain ⟨em, ok, rest, st, status, hle, h1, h2⟩ :=
    readAux_pair input.length input (Nat.le_refl _) rxInit 0 size input.length [] []
  simp only [read] at hok hbig ⊢
  have hema : em.take (input.length - 0) = em := by
    rw [Nat.sub_zero]
    exact List.take_of_length_le hle
  rw [h2] at hok hbig
  simp only [Nat.add_zero, Nat.zero_add] at hbig
  refine ⟨?_, ?_, ?_, ?_⟩
  · rw [h1]
    simpa using hok
  · rw [h1, h2]
    simp only [List.nil_append, Nat.sub_zero]
    rw [List.take_take]
    congr 1
    omega
  · rw [h1, h2]
  · rw [h2]
    simp only [List.nil_append, Nat.sub_zero, List.length_take]
    omega

theorem silent_truncation_true_length_witness :
    (read [4, 1, 2, 3, 0] ([4, 1, 2, 3, 0] : List Nat).length rxInit).ok = true ∧
      2 < (read [4, 1, 2, 3, 0] ([4, 1, 2, 3, 0] : List Nat).length rxInit).pos ∧
      ((read [4, 1, 2, 3, 0] 2 rxInit).ok = true ∧
        (read [4, 1, 2, 3, 0] 2 rxInit).buf =
          (read [4, 1, 2, 3, 0] ([4, 1, 2, 3, 0] : List Nat).length rxInit).buf.take 2 ∧
        (read [4, 1, 2, 3, 0] 2 rxInit).pos =
          (read [4, 1, 2, 3, 0] ([4, 1, 2, 3, 0] : List Nat).length rxInit).pos ∧
        (read [4, 1, 2, 3, 0] ([4, 1, 2, 3, 0] : List Nat).length rxInit).buf.length =
          (read [4, 1, 2, 3, 0] ([4, 1, 2, 3, 0] : List Nat).length rxInit).pos) :=
  ⟨by simp +decide [read, readAux, cobs_getc, dec8, rxInit],
    by simp +decide [read, readAux, cobs_getc, dec8, rxInit],
    silent_truncation_true_length [4, 1, 2, 3, 0] 2
      (by simp +decide [read, readAux, cobs_getc, dec8, rxInit])
      (by simp +decide [read, readAux, cobs_getc, dec8, rxInit])⟩

/-- C7: `write` returns `false` if and only if some `_io->write` call during
the frame returned a count different from the requested count, and in every
case — success or failure — the encoder's accumulation state is reset to the
initial empty-block state (`_tx_pos = 1`, i.e. an empty `acc`, with the
length slot at index 0 reserved) when `write` returns. -/
theorem write_false_iff_short_write_and_reset (results : Nat → Int) (data : List Nat) :
    ((cobs_write results data).success = false ↔
      ∃ i < (cobs_write results data).chunks.length,
        results i ≠ reqLen (cobs_write results data).chunks i) ∧
      (cobs_write results data).acc = [] := by
  have hinv : (cobs_write results data).calls = (cobs_write results data).chunks.length ∧
      ((cobs_write results data).success = true ↔
        chunksOk results (cobs_write results data).chunks) := by
    have hfold : ∀ (P : List Nat) (t : TxState), t.calls = t.chunks.length →
        (t.success = true ↔ chunksOk results t.chunks) →
        (P.foldl (cobs_write_byte results) t).calls =
            (P.foldl (cobs_write_byte results) t).chunks.length ∧
          ((P.foldl (cobs_write_byte results) t).success = true ↔
            chunksOk results (P.foldl (cobs_write_byte results) t).chunks) := by
      intro P
      induction P with
      | nil => intro t h1 h2; exact ⟨h1, h2⟩
      | cons b bs ih =>
        intro t h1 h2
        rw [List.foldl_cons]
        have hstep := cobs_write_byte_inv results t b h1 h2
        exact ih _ hstep.1 hstep.2
    have hf := hfold data txInit rfl (by simp [txInit, chunksOk])
    exact txWriteR_inv results _ _ _ hf.1 hf.2
  refine ⟨?_, rfl⟩
  rw [Bool.eq_false_iff, Ne, hinv.2]
  simp only [chunksOk]
  push_neg
  rfl

/-- C8: the decoder never emits a zero wire byte as payload data — a zero
byte read from the transport always produces a terminal status (`Done` or
`CobsError`), and every wire byte consumed during a `DecodingContinue` step
is non-zero, so any zero in the decoded payload was synthesized at a block
boundary. -/
theorem zero_wire_byte_never_payload :
    (∀ (rest : List Nat) (s : RxState),
        (cobs_getc (0 :: rest) s).status = DecodingDone ∨
          (cobs_getc (0 :: rest) s).status = DecodingCobsError) ∧
      ∀ (input : List Nat) (s : RxState),
        (cobs_getc input s).status = DecodingContinue →
        (input.take (input.length - (cobs_getc input s).rest.length)).all
          (fun b => b != 0) = true := by
  constructor
  · intro rest s
    simp only [cobs_getc]
    by_cases hz : dec8 s.rx_next_zero = 0
    · left; simp [hz]
    · right; simp [hz]
  · exact cobs_getc_consumed_nonzero

theorem zero_wire_byte_never_payload_witness :
    (cobs_getc [2, 5] rxInit).status = DecodingContinue ∧
      (([2, 5] : List Nat).take
          (([2, 5] : List Nat).length - (cobs_getc [2, 5] rxInit).rest.length)).all
        (fun b => b != 0) = true :=
  ⟨by decide, zero_wire_byte_never_payload.2 [2, 5] rxInit (by decide)⟩

/-- C10: `scanf` reads into a 65-byte local buffer with capacity 64 and then
writes a terminating zero at index `actual`; that index is the packet's true
decoded length (not the stored, truncated length), the write is in bounds
exactly when that length is at most 64, and any packet longer than 64 bytes
puts the index past the end of the buffer. -/
theorem scanf_terminator_index_bounds (input : List Nat)
    (hok : (read input (scanfBufLen - 1) rxInit).ok = true) :
    scanfTermIndex input = (read input input.length rxInit).pos ∧
      (scanfTermIndex input < scanfBufLen ↔ scanfTermIndex input ≤ 64) ∧
      (64 < scanfTermIndex input → ¬ scanfTermIndex input < scanfBufLen) := by
  obtain ⟨em, ok, rest, st, status, hle, h1, h2⟩ :=
    readAux_pair input.length input (Nat.le_refl _) rxInit 0 (scanfBufLen - 1)
      input.length [] []
  refine ⟨?_, ?_, ?_⟩
  · simp only [scanfTermIndex, read]
    rw [h1, h2]
  · simp only [scanfBufLen]
    omega
  · simp only [scanfBufLen]
    omega

theorem scanf_terminator_index_bounds_witness :
    (read [1, 0] (scanfBufLen - 1) rxInit).ok = true ∧
      (scanfTermIndex [1, 0] = (read [1, 0] ([1, 0] : List Nat).length rxInit).pos ∧
        (scanfTermIndex [1, 0] < scanfBufLen ↔ scanfTermIndex [1, 0] ≤ 64) ∧
        (64 < scanfTermIndex [1, 0] → ¬ scanfTermIndex [1, 0] < scanfBufLen)) :=
  ⟨by simp +decide [read, readAux, cobs_getc, dec8, rxInit, scanfBufLen],
    scanf_terminator_index_bounds [1, 0]
      (by simp +decide [read, readAux, cobs_getc, dec8, rxInit, scanfBufLen])⟩


end PacketStream

